import Mathlib

/-!
Verification of the `tb::multi_array` header (src/multi_array.h): a
fixed-size, compile-time-dimensioned multidimensional array.  The C++
type `multi_array<T, M, N...>` is recursively defined: the primary
template stores `multi_array<T, N...> sub_array_[M]` and the rank-1
specialization `multi_array<T, N>` stores `T sub_array_[N]`.  We embed
the family shallowly: a dimension list is split into the outermost
dimension `d` and the remaining dimensions `ds`, and the stored array of
`M` slots becomes a function out of `Fin d`.
-/

namespace tb

/-- The type of one slot of the outermost dimension of a
`multi_array<T, d, ds...>`: for rank 1 (`ds = []`) a slot is a bare
element `T`; for higher rank it is the sub-array `multi_array<T, ds...>`,
itself a `Fin`-indexed function.  This mirrors the recursive member
`multi_array<T, N...> sub_array_[M]` / `T sub_array_[N]`. -/
@[reducible] def slot (T : Type) : List Nat → Type
  | [] => T
  | e :: ds => Fin e → slot T ds

/-- `multi_array T d ds` embeds `multi_array<T, d, ds...>`: the member
array `sub_array_` of `d` slots, as a function `Fin d → slot T ds`. -/
@[reducible] def multi_array (T : Type) (d : Nat) (ds : List Nat) : Type :=
  Fin d → slot T ds

/-- A full coordinate for a `multi_array T d ds`: one index per
dimension, outermost first (the argument pack of `operator()` / `at` /
`get`, whose arity is constrained to equal `order()`). -/
@[reducible] def Coords : Nat → List Nat → Type
  | d, [] => Fin d
  | d, e :: ds => Fin d × Coords e ds

variable {T : Type}

/-- `operator[]`: returns the slot (sub-array, or element at rank 1) at
index `i` of the outermost dimension, with no bounds check
(`return sub_array_[i];`). -/
def idx {d : Nat} {ds : List Nat} (a : multi_array T d ds) (i : Fin d) :
    slot T ds :=
  a i

/-- `operator()`: full-coordinate element access.  The rank-1 overload
returns `sub_array_[i]`; the higher-rank overload returns
`sub_array_[i](j...)`, chaining unchecked single-index access through
every rank. -/
def opCall : {d : Nat} → {ds : List Nat} → multi_array T d ds →
    Coords d ds → T
  | _, [], a, i => a i
  | _, _ :: _, a, c => opCall (a c.1) c.2

/-- `size()`: the primary template returns `M` and the rank-1
specialization returns `N` — in both cases the outermost dimension, not
the total element count. -/
def size (d : Nat) (ds : List Nat) : Nat :=
  match ds with
  | [] => d
  | _ :: _ => d

/-- `max_size()`: the primary template returns `M`; the rank-1
specialization returns `size()`. -/
def max_size (d : Nat) (ds : List Nat) : Nat :=
  match ds with
  | [] => size d []
  | _ :: _ => d

/-- `empty()`: `return size() == 0;` in both templates. -/
def empty (d : Nat) (ds : List Nat) : Bool :=
  size d ds == 0

/-- `order()`: the primary template returns `sizeof...(N) + 1`; the
rank-1 specialization returns `1`.  Here `ds` plays the role of the
pack `N...`. -/
def order (ds : List Nat) : Nat :=
  match ds with
  | [] => 1
  | _ :: t => (t.length + 1) + 1

/-- The conjunction of the `assert`s executed by an `operator()` call on
an array whose full dimension list is `dims`, with runtime indices `is`:
the rank-1 overload is `return sub_array_[i];` and the higher-rank
overload is `return sub_array_[i](j...);` — neither contains an
assertion, at any level of the chain. -/
def opCall_asserts : List Nat → List Nat → Bool
  | [], _ => true
  | [_], _ => true
  | _ :: m :: rest, is => opCall_asserts (m :: rest) is.tail

/-- The conjunction of the `assert`s executed by an `at` call on an
array whose full dimension list is `dims`, with runtime indices `is`.
The rank-1 overload is `assert(i < N); return sub_array_[i];`; the
higher-rank overload is `assert(i < M); return sub_array_[i](j...);`,
delegating to the sub-array through `operator()` (not through `at`). -/
def at_asserts : List Nat → List Nat → Bool
  | [n], [i] => decide (i < n)
  | n :: m :: rest, i :: js => decide (i < n) && opCall_asserts (m :: rest) js
  | _, _ => true

/-- Number of remaining array dimensions of the object that the pointer
returned by `data()` points to (`0` means a scalar `T`).  The rank-1
overload returns `pointer` = `T*` (`return sub_array_;`), so its pointee
is a scalar; the higher-rank overload returns `sub_array_->data()`, the
`data()` of its first sub-array, whose dimension list is the tail. -/
def data_order : List Nat → Nat
  | [] => 0
  | _ :: ds => data_order ds

/-- Every dimension of the list `(d, ds)` is positive (the shape the
library requires; needed to read the first element). -/
def allPosB (d : Nat) (ds : List Nat) : Bool :=
  decide (0 < d) && ds.all (fun e => decide (0 < e))

/-- The all-zero coordinate of a shape with positive dimensions. -/
def zeroCoords : (d : Nat) → (ds : List Nat) → allPosB d ds = true →
    Coords d ds
  | d, [], h => ⟨0, by simpa [allPosB] using h⟩
  | d, e :: ds, h => by
    have h2 : 0 < d ∧ 0 < e ∧ ∀ x ∈ ds, 0 < x := by
      simpa [allPosB, List.all_eq_true] using h
    exact ⟨⟨0, h2.1⟩, zeroCoords e ds (by
      simp only [allPosB, Bool.and_eq_true, decide_eq_true_eq,
        List.all_eq_true]
      exact ⟨h2.2.1, fun x hx => by simpa using h2.2.2 x hx⟩)⟩

/-- The scalar that the pointer returned by `data()` points to: the
rank-1 overload returns `sub_array_` (pointing at element `0`); the
higher-rank overload returns `sub_array_->data()`, recursing into the
first sub-array. -/
def data_scalar : {d : Nat} → {ds : List Nat} → multi_array T d ds →
    allPosB d ds = true → T
  | _, [], a, h => a ⟨0, by simpa [allPosB] using h⟩
  | d, e :: ds, a, h => by
    have h2 : 0 < d ∧ 0 < e ∧ ∀ x ∈ ds, 0 < x := by
      simpa [allPosB, List.all_eq_true] using h
    exact data_scalar (a ⟨0, h2.1⟩) (by
      simp only [allPosB, Bool.and_eq_true, decide_eq_true_eq,
        List.all_eq_true]
      exact ⟨h2.2.1, fun x hx => by simpa using h2.2.2 x hx⟩)

/-- The sequence visited by forward iteration from `begin()` to
`end()`: `begin()` is `iterator(sub_array_)` and `end()` is
`iterator(sub_array_ + M)`, so step `k` of the sweep dereferences
`sub_array_ + k`, i.e. yields slot `k`. -/
def iterSeq {d : Nat} {ds : List Nat} (a : multi_array T d ds) :
    List (slot T ds) :=
  List.ofFn fun k : Fin d => a k

/-- The C++ types involved in the iteration accessors of `multi_array`:
`ptr` is the raw pointer `value_type*` (the aliases `iterator` and
`const_iterator`), and `rev I` is `std::reverse_iterator<I>` wrapping an
iterator type `I`.  `std::reverse_iterator<I>` is a distinct class type
with no conversion back to `I`. -/
inductive IterKind : Type
  | ptr : IterKind
  | rev : IterKind → IterKind
  deriving DecidableEq

/-- The declared return type of `rbegin()` in the source: the alias
`iterator`, a raw pointer (`rend()` likewise; the const and `cr`
overloads declare `const_iterator`, also a raw pointer). -/
def rbegin_declared : IterKind :=
  IterKind.ptr

/-- The type of the expression each `rbegin` body actually returns:
`reverse_iterator(end())`, a `std::reverse_iterator` wrapping the
pointer `end()` (`rend` and the const/`cr` overloads analogously wrap
`begin()`/`end()` in `const_reverse_iterator`). -/
def rbegin_returned : IterKind :=
  IterKind.rev IterKind.ptr

/-- `operator==`: loops `i` over `0..M-1` and returns `false` as soon as
`lhs[i] != rhs[i]`; otherwise returns `true`.  At rank 1 the slot
comparison `!=` is the element type's inequality; at higher rank it is
the library's own `operator!=`, which returns `!(lhs == rhs)`. -/
def ma_eq [DecidableEq T] : {d : Nat} → {ds : List Nat} →
    multi_array T d ds → multi_array T d ds → Bool
  | d, [], a, b => (List.finRange d).all fun i => ! decide (a i ≠ b i)
  | d, _ :: _, a, b => (List.finRange d).all fun i => ! ! ma_eq (a i) (b i)

/-- `operator!=`: `return !(lhs == rhs);`. -/
def ma_ne [DecidableEq T] {d : Nat} {ds : List Nat}
    (a b : multi_array T d ds) : Bool :=
  ! ma_eq a b

/-- The slot value written by broadcast assignment of `value`: at rank 1
`std::fill` stores `value` itself into each `T` slot; at higher rank the
assignment converts `value` through the `multi_array(const T&)`
constructor of the sub-array, which broadcast-fills it recursively. -/
def slotOfValue (v : T) : (ds : List Nat) → slot T ds
  | [] => v
  | _ :: ds => fun _ => slotOfValue v ds

/-- The broadcast constructor `multi_array(const T& value)`:
`std::fill(begin(), end(), value)` writes the (converted) value into
every outermost slot. -/
def ofValue (v : T) (d : Nat) (ds : List Nat) : multi_array T d ds :=
  fun _ => slotOfValue v ds

/-- `fill(const T& value)`: also `std::fill(begin(), end(), value)`,
overwriting every outermost slot of the existing array `a` with the
(converted) value, independently of the prior contents. -/
def fill {d : Nat} {ds : List Nat} (_a : multi_array T d ds) (v : T) :
    multi_array T d ds :=
  fun _ => slotOfValue v ds

/-- The tuple-like accessor `get<I, J...>` applied with a full
coordinate: the single-index overload on a rank-1 array returns `a[I]`
(an element), and the multi-index overload returns `get<J...>(a[I])`.
The `static_assert(I < N)` bounds checks are compile-time; a `Fin`-typed
coordinate is exactly a compile-time-valid one. -/
def get : {d : Nat} → {ds : List Nat} → multi_array T d ds →
    Coords d ds → T
  | _, [], a, i => a i
  | _, _ :: _, a, c => get (a c.1) c.2

/-- `C_array_size_impl`: the value metafunction behind `array_size()`.
A non-array type has value `1`; an array type `U[n]` (outermost extent
`n`, remaining extents those of `U`) has value
`C_array_size_impl<U>::value * n`.  A C++ type with extents
`n1, n2, ...` (outermost first) is represented by the list of its
extents. -/
def C_array_size_impl : List Nat → Nat
  | [] => 1
  | n :: rest => C_array_size_impl rest * n

/-- `array_size(const T&)`: `return C_array_size_impl<T>::value;` for
the argument's type, here given by its extent list. -/
def array_size (extents : List Nat) : Nat :=
  C_array_size_impl extents

/-- `Nested_initializer<T, M, N...>`: nested `std::initializer_list`s,
one `List` layer per dimension.  The C++ alias depends only on the
number of dimensions, not their sizes; depth `0` (not produced by the
alias) is a bare element. -/
@[reducible] def Nested_initializer (T : Type) : Nat → Type
  | 0 => T
  | n + 1 => List (Nested_initializer T n)

/-- Collects a `Fin`-indexed family of optional values into an optional
family: `some` exactly when every component is `some`. -/
def seqFin : {n : Nat} → {β : Type} → ((i : Fin n) → Option β) →
    Option (Fin n → β)
  | 0, _, _ => some fun i => i.elim0
  | _ + 1, _, f =>
    match f 0, seqFin fun i => f i.succ with
    | some b, some g => some (Fin.cases b g)
    | _, _ => none

/-- The nested-initializer constructor.  Each level executes
`assert(init_list.size() == M)` and then `std::copy`s the list into
`sub_array_`; at higher rank each copied element is converted through
the sub-array's own initializer constructor, which re-runs the same
check one level down.  `none` models a failed assertion somewhere in
that chain. -/
def ofLit : (d : Nat) → (ds : List Nat) →
    Nested_initializer T (ds.length + 1) → Option (multi_array T d ds)
  | d, [], l =>
    if h : l.length = d then some fun i => l.get (Fin.cast h.symm i)
    else none
  | d, e :: ds, l =>
    if h : l.length = d then
      seqFin fun i : Fin d => ofLit e ds (l.get (Fin.cast h.symm i))
    else none

/-- The shape condition the initializer constructor chain checks: at
every nesting level of the literal that the construction reaches, the
outer length equals that level's declared dimension. -/
def litShapeOK : (d : Nat) → (ds : List Nat) →
    Nested_initializer T (ds.length + 1) → Bool
  | d, [], l => decide (l.length = d)
  | d, e :: ds, l =>
    decide (l.length = d) && l.all fun inner => litShapeOK e ds inner

/-- Looks up the element of a nested literal at a full coordinate
(`none` when some list on the path is too short). -/
def litRead : {d : Nat} → (ds : List Nat) →
    Nested_initializer T (ds.length + 1) → Coords d ds → Option T
  | _, [], l, i => l.get? i.val
  | _, _e :: ds, l, c =>
    match l.get? c.1.val with
    | some inner => litRead ds inner c.2
    | none => none

/-- `C_array<T, d, ds...>`: the built-in (native) nested array type with
the same extents, element of one outer slot. -/
@[reducible] def C_slot (T : Type) : List Nat → Type
  | [] => T
  | e :: ds => Fin e → C_slot T ds

/-- A native nested array `T[d][ds...]`, as produced by the `C_array`
type function: `d` slots, each a native array of the remaining
extents. -/
@[reducible] def C_array (T : Type) (d : Nat) (ds : List Nat) : Type :=
  Fin d → C_slot T ds

/-- Reads a native nested array at a full coordinate (plain nested
subscripting `a[i1][i2]...[iR]`). -/
def cRead : {d : Nat} → {ds : List Nat} → C_array T d ds →
    Coords d ds → T
  | _, [], a, i => a i
  | _, _ :: _, a, c => cRead (a c.1) c.2

/-- The total number of scalars of a shape: product of all extents
(`d * ds.prod`, computed recursively). -/
def totalSize : Nat → List Nat → Nat
  | d, [] => d
  | d, e :: ds => d * totalSize e ds

/-- The row-major flat scalar contents of a native nested array: a
built-in array `T[d][ds...]` is laid out as its `d` sub-arrays one
after the other, each itself row-major.  `(R*)a` in `to_multi_array`
reads exactly this scalar sequence. -/
def cflat : {d : Nat} → {ds : List Nat} → C_array T d ds → List T
  | _, [], a => List.ofFn a
  | _, _ :: _, a => (List.ofFn fun i => cflat (a i)).flatten

/-- Builds a `multi_array` whose contiguous row-major storage holds
`f 0, f 1, f 2, ...`: slot `i` of the outermost dimension occupies
offsets `i * totalSize e ds` through `(i+1) * totalSize e ds - 1`.
This models a write of the scalar stream `f` starting at the `T*`
returned by `data()`. -/
def ofFlatF [Inhabited T] : (d : Nat) → (ds : List Nat) → (Nat → T) →
    multi_array T d ds
  | _, [], f => fun i => f i.val
  | _, e :: ds, f => fun i =>
    ofFlatF e ds fun k => f (i.val * totalSize e ds + k)

/-- `to_multi_array`: default-constructs the deduced `multi_array_for`
type and then `std::copy_n((R*)a, array_size(a), result.data())` — it
copies all `array_size(a)` scalars of the native array, in row-major
order, into the container's contiguous storage starting at the scalar
pointer `result.data()`. -/
def to_multi_array [Inhabited T] {d : Nat} {ds : List Nat}
    (a : C_array T d ds) : multi_array T d ds :=
  ofFlatF d ds fun k => (cflat a).getD k default

/-- Coordinate-preserving copy of a native nested array into a
`multi_array`: slot for slot, element for element.  This is the
spec-side description of the conversion (every scalar at the same
coordinate), to be compared with `to_multi_array`. -/
def embedC : {d : Nat} → {ds : List Nat} → C_array T d ds →
    multi_array T d ds
  | _, [], a => a
  | _, _ :: _, a => fun i => embedC (a i)

/-- Concrete 2-by-3 example array holding 1..6 in row-major order. -/
def ex23 : multi_array Nat 2 [3] :=
  fun i j => i.val * 3 + j.val + 1

/-- The nested literal `{{1,2,3},{4,5,6}}`. -/
def lit23 : Nested_initializer Nat 2 :=
  [[1, 2, 3], [4, 5, 6]]

theorem hpos23 : allPosB 2 [3] = true := by decide

theorem opCall_asserts_eq_true (dims is : List Nat) :
    opCall_asserts dims is = true := by
  induction dims generalizing is with
  | nil => rfl
  | cons n rest ih =>
    cases rest with
    | nil => rfl
    | cons m rest2 => simpa [opCall_asserts] using ih is.tail

theorem seqFin_eq_some {n : Nat} {β : Type} (f : (i : Fin n) → Option β)
    (g : Fin n → β) (h : seqFin f = some g) (i : Fin n) :
    f i = some (g i) := by
  induction n with
  | zero => exact i.elim0
  | succ n ih =>
    rw [seqFin] at h
    cases hf0 : f 0 with
    | none => rw [hf0] at h; exact absurd h (by simp)
    | some b =>
      cases hfs : seqFin fun j => f j.succ with
      | none => rw [hf0, hfs] at h; exact absurd h (by simp)
      | some g0 =>
        rw [hf0, hfs] at h
        have hg : g = Fin.cases b g0 := by
          have := h
          simpa using this.symm
        subst hg
        induction i using Fin.cases with
        | zero => simpa using hf0
        | succ j => simpa using ih (fun j => f j.succ) g0 hfs j

theorem seqFin_isSome {n : Nat} {β : Type} (f : (i : Fin n) → Option β) :
    (seqFin f).isSome = true ↔ ∀ i, (f i).isSome = true := by
  induction n with
  | zero =>
    simp only [seqFin, Option.isSome_some, true_iff]
    exact fun i => i.elim0
  | succ n ih =>
    rw [seqFin]
    cases hf0 : f 0 with
    | none =>
      simp only [Option.isSome_none]
      constructor
      · intro h; exact absurd h (by simp)
      · intro h
        have := h 0
        rw [hf0] at this
        exact absurd this (by simp)
    | some b =>
      cases hfs : seqFin fun j => f j.succ with
      | none =>
        simp only [Option.isSome_none]
        constructor
        · intro h; exact absurd h (by simp)
        · intro h
          have h2 : ∀ j : Fin n, (f j.succ).isSome = true :=
            fun j => h j.succ
          have := (ih fun j => f j.succ).mpr h2
          rw [hfs] at this
          exact absurd this (by simp)
      | some g0 =>
        simp only [Option.isSome_some, true_iff]
        intro i
        induction i using Fin.cases with
        | zero => simp [hf0]
        | succ j =>
          have h2 := (ih fun j => f j.succ).mp (by simp [hfs])
          exact h2 j

theorem cflat_length {d : Nat} {ds : List Nat} (a : C_array T d ds) :
    (cflat a).length = totalSize d ds := by
  induction ds generalizing d with
  | nil => simp [cflat, totalSize]
  | cons e ds ih =>
    show ((List.ofFn fun i => cflat (a i)).flatten).length
        = d * totalSize e ds
    rw [List.length_flatten, List.map_ofFn]
    have hfn : (List.length ∘ fun i : Fin d => cflat (a i))
        = fun _ : Fin d => totalSize e ds := by
      funext i
      exact ih (a i)
    rw [hfn, List.ofFn_const, List.sum_const_nat]

theorem getD_flatten_uniform {S : Nat} (d0 : T) :
    ∀ (L : List (List T)), (∀ x ∈ L, x.length = S) →
    ∀ (i k : Nat), i < L.length → k < S →
    L.flatten.getD (i * S + k) d0 = (L.getD i []).getD k d0 := by
  intro L
  induction L with
  | nil => intro _ i k hi _; exact absurd hi (by simp)
  | cons x L ih =>
    intro hx i k hi hk
    cases i with
    | zero =>
      have hxlen : x.length = S := hx x (by simp)
      rw [List.flatten_cons, Nat.zero_mul, Nat.zero_add,
        List.getD_append _ _ _ _ (by omega), List.getD_cons_zero]
    | succ i =>
      have hxlen : x.length = S := hx x (by simp)
      have harith : (i + 1) * S + k - x.length = i * S + k := by
        rw [hxlen]; ring_nf; omega
      rw [List.flatten_cons,
        List.getD_append_right _ _ _ _ (by rw [hxlen]; nlinarith),
        harith, List.getD_cons_succ]
      exact ih (fun y hy => hx y (by simp [hy])) i k (by simpa using hi) hk

theorem ofFlatF_congrOn [Inhabited T] :
    ∀ (d : Nat) (ds : List Nat) (f g : Nat → T),
    (∀ k, k < totalSize d ds → f k = g k) →
    ofFlatF d ds f = ofFlatF d ds g := by
  intro d ds
  induction ds generalizing d with
  | nil =>
    intro f g h
    funext i
    exact h i.val i.isLt
  | cons e ds ih =>
    intro f g h
    funext i
    show ofFlatF e ds _ = ofFlatF e ds _
    refine ih e _ _ fun k hk => h _ ?_
    have h1 : i.val * totalSize e ds + k < (i.val + 1) * totalSize e ds := by
      rw [Nat.succ_mul]
      omega
    have h2 : (i.val + 1) * totalSize e ds ≤ d * totalSize e ds :=
      Nat.mul_le_mul_right _ i.isLt
    calc i.val * totalSize e ds + k
        < (i.val + 1) * totalSize e ds := h1
      _ ≤ d * totalSize e ds := h2
      _ = totalSize d (e :: ds) := rfl

theorem to_multi_array_eq_embedC [Inhabited T] :
    ∀ (d : Nat) (ds : List Nat) (a : C_array T d ds),
    to_multi_array a = embedC a := by
  intro d ds
  induction ds generalizing d with
  | nil =>
    intro a
    funext i
    show (cflat a).getD i.val default = a i
    rw [show cflat a = List.ofFn a from rfl,
      List.getD_eq_getElem _ _ (by simp),
      List.getElem_ofFn]
  | cons e ds ih =>
    intro a
    funext i
    show ofFlatF e ds
        (fun k => (cflat a).getD (i.val * totalSize e ds + k) default)
      = embedC a i
    have hsub : ∀ k, k < totalSize e ds →
        (cflat a).getD (i.val * totalSize e ds + k) default
          = (cflat (a i)).getD k default := by
      intro k hk
      have hflat : cflat a = (List.ofFn fun j => cflat (a j)).flatten := rfl
      have hlen : ∀ x ∈ List.ofFn fun j : Fin d => cflat (a j),
          x.length = totalSize e ds := by
        intro x hx
        obtain ⟨j, rfl⟩ := (List.mem_ofFn _ x).mp hx
        exact cflat_length (a j)
      rw [hflat, getD_flatten_uniform default _ hlen i.val k
        (by simp) hk]
      congr 1
      rw [List.getD_eq_getElem _ _ (by simp),
        List.getElem_ofFn]
    calc ofFlatF e ds
          (fun k => (cflat a).getD (i.val * totalSize e ds + k) default)
        = ofFlatF e ds (fun k => (cflat (a i)).getD k default) :=
          ofFlatF_congrOn e ds _ _ hsub
      _ = embedC (a i) := ih e (a i)

theorem opCall_embedC :
    ∀ (d : Nat) (ds : List Nat) (a : C_array T d ds) (c : Coords d ds),
    opCall (embedC a) c = cRead a c := by
  intro d ds
  induction ds generalizing d with
  | nil => intro a c; rfl
  | cons e ds ih =>
    intro a c
    show opCall (embedC (a c.1)) c.2 = cRead (a c.1) c.2
    exact ih e (a c.1) c.2

theorem opCall_slotOfValue (v : T) :
    ∀ (ds : List Nat) (d : Nat) (c : Coords d ds),
    @opCall T d ds (fun _ => slotOfValue v ds) c = v := by
  intro ds
  induction ds with
  | nil => intro d c; rfl
  | cons e ds ih =>
    intro d c
    show @opCall T e ds (fun _ => slotOfValue v ds) c.2 = v
    exact ih e c.2

/-- Claim C1, counterexample.  For the 2-by-3 shape, the call
`a.at(0, 5)` has its outermost index in bounds (`0 < 2`) and its second
index out of range (`5 >= 3`), yet the conjunction of all assertions
executed by the `at` chain evaluates to `true`: no assertion fails,
contradicting the claim that every level's first index is checked. -/
theorem C1_counterexample :
    at_asserts [2, 3] [0, 5] = true ∧ 0 < 2 ∧ ¬ (5 < 3) := by
  decide

/-- Claim C1, amended: `at` asserts only the outermost index `i1 < d1`.
It delegates to the sub-array through the unchecked `operator()`, which
performs no assertion at any level, so for every shape and every index
list of matching arity the assertions of the whole chain reduce to the
single outermost check. -/
theorem C1_at_asserts_only_outermost (n : Nat) (rest : List Nat)
    (i : Nat) (js : List Nat) (harity : js.length = rest.length) :
    at_asserts (n :: rest) (i :: js) = decide (i < n) := by
  cases rest with
  | nil =>
    cases js with
    | nil => rfl
    | cons j js2 => exact absurd harity (by simp)
  | cons m rest2 =>
    cases js with
    | nil => exact absurd harity (by simp)
    | cons j js2 =>
      show (decide (i < n) && opCall_asserts (m :: rest2) (j :: js2))
        = decide (i < n)
      rw [opCall_asserts_eq_true, Bool.and_true]

/-- Witness for the amended claim C1 at the concrete input of the
counterexample: shape (2,3), indices (0,5). -/
theorem C1_witness :
    ([5] : List Nat).length = ([3] : List Nat).length
    ∧ at_asserts [2, 3] [0, 5] = decide (0 < 2) :=
  ⟨rfl, C1_at_asserts_only_outermost 2 [3] 0 [5] rfl⟩

/-- Claim C2, counterexample.  For the rank-2 shape with remaining
dimensions `[3]`, the claim says `data()` returns a pointer to the
first sub-array of rank 1 (not to a scalar), but the code returns
`sub_array_->data()`, whose pointee has `data_order [3] = 0` remaining
dimensions — a scalar `T`, not the rank-`order [3] - 1` sub-array. -/
theorem C2_counterexample :
    data_order [3] = 0 ∧ data_order [3] ≠ order [3] - 1 := by
  decide

/-- Claim C2, amended: at every rank, `data()` returns a pointer to a
scalar `T` (zero remaining dimensions), namely the element at the
all-zero coordinate — the rank-1 overload returns `sub_array_` and the
higher-rank overload recurses through the first sub-array down to the
first scalar.  (At rank 1 the claim was already right: the pointer is to
the contiguous elements of `T`.) -/
theorem C2_data_points_to_first_scalar :
    (∀ ds : List Nat, data_order ds = 0)
    ∧ ∀ (U : Type) (d : Nat) (ds : List Nat) (a : multi_array U d ds)
        (h : allPosB d ds = true),
      data_scalar a h = opCall a (zeroCoords d ds h) := by
  constructor
  · intro ds
    induction ds with
    | nil => rfl
    | cons e ds ih => simpa [data_order] using ih
  · intro U d ds
    induction ds generalizing d with
    | nil => intro a h; rfl
    | cons e ds ih =>
      intro a h
      have h2 : 0 < d ∧ 0 < e ∧ ∀ x ∈ ds, 0 < x := by
        simpa [allPosB, List.all_eq_true] using h
      show data_scalar a h = opCall a (zeroCoords d (e :: ds) h)
      rw [data_scalar, zeroCoords]
      exact ih e (a ⟨0, h2.1⟩) _

/-- Witness for the amended claim C2 at the concrete array `ex23` of
shape (2,3): its `data()` pointee is the element at coordinate (0,0). -/
theorem C2_witness :
    allPosB 2 [3] = true
    ∧ data_scalar ex23 hpos23 = opCall ex23 (zeroCoords 2 [3] hpos23) :=
  ⟨hpos23, C2_data_points_to_first_scalar.2 Nat 2 [3] ex23 hpos23⟩

/-- Claim C3, code bug.  The forward half of the claim holds: iteration
from `begin()` to `end()` visits exactly the `d1` outermost slots
`a[0], ..., a[d1-1]` in that order (the sequence has length `d1` and
its `k`-th entry is `operator[]` at `k`), and the pure model makes the
sequence finite and unchanged on re-iteration.  The reverse half is the
intent of the source but not its behavior: `rbegin`/`rend` (and the
const/`cr` overloads, in both templates) declare the raw-pointer return
type `iterator`/`const_iterator` while each body returns a
`std::reverse_iterator`, a type that the declared one is not and that
has no conversion to it, so every instantiation of a reverse accessor
is ill-formed and the program has no usable reverse iteration. -/
theorem C3_iteration_code_bug (U : Type) (d : Nat) (ds : List Nat)
    (a : multi_array U d ds) :
    ((iterSeq a).length = d
      ∧ ∀ k : Fin d,
          (iterSeq a).get (Fin.cast (by simp [iterSeq] : d = _) k) = idx a k)
    ∧ rbegin_returned ≠ rbegin_declared := by
  refine ⟨⟨by simp [iterSeq], fun k => ?_⟩, by decide⟩
  simp [iterSeq, idx, List.get_ofFn]

/-- Claim C4: `size()` and `max_size()` both return the outermost
dimension only, `empty()` holds exactly when that dimension is zero,
and `order()` is the number of dimensions of the type (so a 2-by-3
array reports size 2, not 6, and order 2). -/
theorem C4_size_order (d : Nat) (ds : List Nat) :
    size d ds = d
    ∧ max_size d ds = d
    ∧ (empty d ds = true ↔ d = 0)
    ∧ order ds = ds.length + 1 := by
  cases ds <;> simp [size, max_size, empty, order]

theorem ma_eq_iff_eq [DecidableEq T] :
    ∀ (ds : List Nat) (d : Nat) (a b : multi_array T d ds),
    ma_eq a b = true ↔ a = b := by
  intro ds
  induction ds with
  | nil =>
    intro d a b
    rw [ma_eq]
    simp only [List.all_eq_true, List.mem_finRange, forall_true_left,
      Bool.not_eq_true', decide_eq_false_iff_not, not_not]
    constructor
    · intro h; funext i; exact h i
    · intro h i; rw [h]
  | cons e ds ih =>
    intro d a b
    rw [ma_eq]
    simp only [List.all_eq_true, List.mem_finRange, forall_true_left,
      Bool.not_not]
    constructor
    · intro h
      funext i
      exact (ih e (a i) (b i)).mp (h i)
    · intro h i
      rw [h]
      exact (ih e (b i) (b i)).mpr rfl

/-- Claim C5: for arrays of identical element type and dimension list,
`operator==` returns `true` exactly when every outermost slot compares
equal under the same rule, recursively down to per-element equality of
`T` at rank 1 — i.e. exactly when the arrays are equal as nested
families of elements — and `operator!=` is its exact negation. -/
theorem C5_equality (U : Type) (inst : DecidableEq U) (d : Nat)
    (ds : List Nat) (a b : multi_array U d ds) :
    (ma_eq a b = true ↔ a = b) ∧ ma_ne a b = ! ma_eq a b :=
  ⟨ma_eq_iff_eq ds d a b, rfl⟩

theorem ofLit_isSome_eq_shape {U : Type} :
    ∀ (ds : List Nat) (d : Nat) (l : Nested_initializer U (ds.length + 1)),
    (ofLit d ds l).isSome = litShapeOK d ds l := by
  intro ds
  induction ds with
  | nil =>
    intro d l
    rw [ofLit, litShapeOK]
    split
    · next h => simp [h]
    · next h => simp [h]
  | cons e ds ih =>
    intro d l
    rw [ofLit, litShapeOK]
    split
    · next h =>
      rw [Bool.eq_iff_iff, seqFin_isSome]
      simp only [Bool.and_eq_true, decide_eq_true_eq, List.all_eq_true]
      constructor
      · intro hall
        refine ⟨h, fun x hx => ?_⟩
        obtain ⟨n, rfl⟩ := List.mem_iff_get.mp hx
        have h2 := hall (Fin.cast h n)
        rw [ih] at h2
        have hcast : Fin.cast h.symm (Fin.cast h n) = n := rfl
        rw [hcast] at h2
        exact h2
      · intro hall i
        rw [ih]
        exact hall.2 _ (List.get_mem l _ _)
    · next h => simp [h]

theorem ofLit_read {U : Type} :
    ∀ (ds : List Nat) (d : Nat) (l : Nested_initializer U (ds.length + 1))
      (a : multi_array U d ds), ofLit d ds l = some a →
    ∀ c : Coords d ds, litRead ds l c = some (opCall a c) := by
  intro ds
  induction ds with
  | nil =>
    intro d l a h c
    rw [ofLit] at h
    split at h
    · next hlen =>
      injection h with h2
      subst h2
      show l.get? c.val = some (l.get (Fin.cast hlen.symm c))
      rw [List.get?_eq_get (show c.val < l.length by omega)]
      rfl
    · next => exact absurd h (by simp)
  | cons e ds ih =>
    intro d l a h c
    rw [ofLit] at h
    split at h
    · next hlen =>
      have hi := seqFin_eq_some _ a h c.1
      show litRead (e :: ds) l c = some (opCall (a c.1) c.2)
      rw [litRead, List.get?_eq_get (show c.1.val < l.length by omega)]
      show litRead ds (l.get ⟨c.1.val, _⟩) c.2 = some (opCall (a c.1) c.2)
      exact ih e (l.get ⟨c.1.val, by omega⟩) (a c.1) hi c.2
    · next => exact absurd h (by simp)

/-- Claim C6: nested-literal construction checks, at every nesting
level the construction reaches, that the literal's outer length equals
that level's declared dimension (success of `ofLit` coincides exactly
with `litShapeOK`; a mismatch is a failed assertion, modeled `none`);
and on success the element at each coordinate equals the literal's
element at the same nested position. -/
theorem C6_nested_literal (U : Type) (d : Nat) (ds : List Nat)
    (l : Nested_initializer U (ds.length + 1)) :
    ((ofLit d ds l).isSome = litShapeOK d ds l)
    ∧ ∀ a : multi_array U d ds, ofLit d ds l = some a →
        ∀ c : Coords d ds, litRead ds l c = some (opCall a c) :=
  ⟨ofLit_isSome_eq_shape ds d l, fun a h c => ofLit_read ds d l a h c⟩

/-- Witness for claim C6 at the literal `{{1,2,3},{4,5,6}}` and the
declared shape (2,3): construction succeeds (shape matches), the
element of the constructed array at coordinate (1,2) is the literal's
entry at that nested position, and that entry evaluates to 6. -/
theorem C6_witness :
    ((ofLit 2 [3] lit23).isSome = litShapeOK 2 [3] lit23)
    ∧ litRead [3] lit23 ((1 : Fin 2), (2 : Fin 3))
      = some (opCall ((ofLit 2 [3] lit23).get (by decide))
          ((1 : Fin 2), (2 : Fin 3)))
    ∧ litRead [3] lit23 ((1 : Fin 2), (2 : Fin 3)) = some 6 :=
  ⟨(C6_nested_literal Nat 2 [3] lit23).1,
   (C6_nested_literal Nat 2 [3] lit23).2 ((ofLit 2 [3] lit23).get (by decide))
     (Option.some_get _).symm ((1 : Fin 2), (2 : Fin 3)),
   by decide⟩

/-- Claim C7: converting a native fixed-size nested array with
`to_multi_array` — a row-major flat copy of all `array_size(a)` scalars
into the container's contiguous storage — yields a container whose
element at every coordinate equals the native source's element at the
same coordinate. -/
theorem C7_to_multi_array (U : Type) (inst : Inhabited U) (d : Nat)
    (ds : List Nat) (a : C_array U d ds) (c : Coords d ds) :
    opCall (to_multi_array a) c = cRead a c := by
  rw [to_multi_array_eq_embedC]
  exact opCall_embedC d ds a c

/-- Claim C8: broadcast construction from a value `v` yields an array
reading `v` at every full coordinate, and `fill v` on any array in any
prior state does the same. -/
theorem C8_broadcast_fill (U : Type) (v : U) (d : Nat) (ds : List Nat)
    (a : multi_array U d ds) (c : Coords d ds) :
    opCall (ofValue v d ds) c = v ∧ opCall (fill a v) c = v :=
  ⟨opCall_slotOfValue v ds d c, opCall_slotOfValue v ds d c⟩

/-- Claim C9: the compile-time-indexed accessor `get<I1,...,IR>` with a
full, compile-time-valid coordinate returns the same element as the
full-coordinate call `operator()(I1,...,IR)`, at every position. -/
theorem C9_get_eq_opCall (U : Type) :
    ∀ (ds : List Nat) (d : Nat) (a : multi_array U d ds)
      (c : Coords d ds), get a c = opCall a c := by
  intro ds
  induction ds with
  | nil => intro d a c; rfl
  | cons e ds ih => intro d a c; exact ih e (a c.1) c.2

/-- Claim C10: `array_size` of a native array type is the product of
all its dimension extents at every rank (the total scalar count), and
on a type with no array extents the empty product is 1. -/
theorem C10_array_size (extents : List Nat) :
    array_size extents = extents.prod
    ∧ array_size ([] : List Nat) = 1 := by
  refine ⟨?_, rfl⟩
  induction extents with
  | nil => rfl
  | cons n rest ih =>
    show C_array_size_impl rest * n = (n :: rest).prod
    rw [List.prod_cons,
      show C_array_size_impl rest = array_size rest from rfl, ih,
      Nat.mul_comm]

end tb
